import Mathlib

/-!
Verification development for the buildpack registry cache
(`internal/registry/registry.go`).

The development shallowly embeds the registry's pure logic:

* the semantic-version comparison it delegates to (`golang.org/x/mod/semver`:
  `parse`, `compareInt`, `comparePrerelease`, `Compare`), translated at the
  byte level over `List Char`;
* the entry data model (`Buildpack`, `Entry`) and the selection logic of
  `LocateBuildpack`;
* the shard-directory computation and line-oriented index reading of
  `readEntry`;
* the lifecycle state machine of the cache (`Initialize`) and the address
  validation capability (`Validate`), with the external collaborators
  (git transport, JSON decoding, image-reference parsing) supplied as
  oracle parameters, as the specification designates them collaborators
  outside this core.

Effectful Go functions returning `(value, error)` pairs are embedded as
functions returning the pair of the value and an `Option String` error,
with `errors.Wrap(err, msg)` embedded as the message `msg ++ ": " ++ err`
that the pkg/errors chain renders.
-/

namespace Semver

/-- Go `'0' <= c && c <= '9'` on bytes; versions are ASCII so `Char` is faithful. -/
def isDigitC (c : Char) : Bool := '0' ≤ c && c ≤ '9'

/-- Embeds `isIdentChar`: `'A'-'Z'`, `'a'-'z'`, `'0'-'9'` or `'-'`. -/
def isIdentChar (c : Char) : Bool :=
  ('A' ≤ c && c ≤ 'Z') || ('a' ≤ c && c ≤ 'z') || ('0' ≤ c && c ≤ '9') || c = '-'

/-- Embeds `isNum`: every byte is a digit (true on the empty string, as in Go). -/
def isNumC (v : List Char) : Bool := v.all isDigitC

/-- Embeds `isBadNum`: all digits, more than one of them, and a leading zero. -/
def isBadNum (v : List Char) : Bool :=
  v.all isDigitC && decide (1 < v.length) && (v.head? = some '0')

/-- Bytewise lexicographic `<` on strings, as Go's `dx < dy` string comparison. -/
def lexLt : List Char → List Char → Bool
  | [], [] => false
  | [], _ :: _ => true
  | _ :: _, [] => false
  | a :: as, b :: bs => if a < b then true else if b < a then false else lexLt as bs

theorem lexLt_irrefl : ∀ x : List Char, lexLt x x = false := by
  intro x
  induction x with
  | nil => rfl
  | cons a as ih => simp [lexLt, ih]

theorem lexLt_asymm : ∀ x y : List Char, lexLt x y = true → lexLt y x = false := by
  intro x
  induction x with
  | nil =>
    intro y h
    cases y with
    | nil => simp [lexLt] at h
    | cons b bs => simp [lexLt]
  | cons a as ih =>
    intro y h
    cases y with
    | nil => simp [lexLt] at h
    | cons b bs =>
      simp only [lexLt] at h ⊢
      rcases lt_trichotomy a b with hab | hab | hab
      · simp [hab, not_lt_of_gt hab]
      · subst hab
        simp only [lt_irrefl, if_false] at h ⊢
        exact ih bs h
      · simp [hab, not_lt_of_gt hab] at h

theorem lexLt_trans : ∀ x y z : List Char,
    lexLt x y = true → lexLt y z = true → lexLt x z = true := by
  intro x
  induction x with
  | nil =>
    intro y z hxy hyz
    cases y with
    | nil => simp [lexLt] at hxy
    | cons b bs =>
      cases z with
      | nil => simp [lexLt] at hyz
      | cons c cs => simp [lexLt]
  | cons a as ih =>
    intro y z hxy hyz
    cases y with
    | nil => simp [lexLt] at hxy
    | cons b bs =>
      cases z with
      | nil => simp [lexLt] at hyz
      | cons c cs =>
        simp only [lexLt] at hxy hyz ⊢
        rcases lt_trichotomy a b with hab | hab | hab
        · rcases lt_trichotomy b c with hbc | hbc | hbc
          · simp [lt_trans hab hbc]
          · subst hbc; simp [hab]
          · simp [hbc, not_lt_of_gt hbc] at hyz
        · subst hab
          rcases lt_trichotomy a c with hac | hac | hac
          · simp [hac]
          · subst hac
            simp only [lt_irrefl, if_false] at hxy hyz ⊢
            exact ih bs cs hxy hyz
          · simp [hac, not_lt_of_gt hac] at hyz
        · simp [hab, not_lt_of_gt hab] at hxy

theorem lexLt_total : ∀ x y : List Char,
    x ≠ y → lexLt x y = true ∨ lexLt y x = true := by
  intro x
  induction x with
  | nil =>
    intro y h
    cases y with
    | nil => exact absurd rfl h
    | cons b bs => left; simp [lexLt]
  | cons a as ih =>
    intro y h
    cases y with
    | nil => right; simp [lexLt]
    | cons b bs =>
      rcases lt_trichotomy a b with hab | hab | hab
      · left; simp [lexLt, hab]
      · subst hab
        have hne : as ≠ bs := fun he => h (by rw [he])
        rcases ih bs hne with h1 | h1
        · left; simp [lexLt, h1]
        · right; simp [lexLt, h1]
      · right; simp [lexLt, hab]

/-- Embeds `parseInt`: a digit run, rejecting a multi-digit leading zero;
returns the run and the rest. -/
def parseIntC (v : List Char) : Option (List Char × List Char) :=
  match v with
  | [] => none
  | c :: cs =>
    if isDigitC c then
      let ds := cs.takeWhile isDigitC
      let rest := cs.dropWhile isDigitC
      if c = '0' && decide (ds ≠ []) then none
      else some (c :: ds, rest)
    else none

/-- Scanning loop of `parsePrerelease`: `cur` is the current dot-separated
segment scanned so far (Go's `v[start:i]`); stops at `'+'` or the end,
rejecting a non-ident character, an empty segment, or a bad number. -/
def scanPre (cur : List Char) : List Char → Option (List Char × List Char)
  | [] => if cur = [] || isBadNum cur then none else some ([], [])
  | c :: cs =>
    if c = '+' then
      if cur = [] || isBadNum cur then none else some ([], c :: cs)
    else if c = '.' then
      if cur = [] || isBadNum cur then none
      else (scanPre [] cs).map (fun p => (c :: p.1, p.2))
    else if isIdentChar c then (scanPre (cur ++ [c]) cs).map (fun p => (c :: p.1, p.2))
    else none

/-- Embeds `parsePrerelease`: requires a leading `'-'`, then scans to `'+'`
or the end; returns the consumed text (with the `'-'`) and the rest. -/
def parsePre (v : List Char) : Option (List Char × List Char) :=
  match v with
  | [] => none
  | c :: cs =>
    if c = '-' then (scanPre [] cs).map (fun p => ('-' :: p.1, p.2)) else none

/-- Scanning loop of `parseBuild`: runs to the end of input, segments split on
`'.'` must be nonempty and made of ident characters (no bad-number check). -/
def scanBuild (cur : List Char) : List Char → Bool
  | [] => !(cur = [])
  | c :: cs =>
    if c = '.' then
      if cur = [] then false else scanBuild [] cs
    else if isIdentChar c then scanBuild (cur ++ [c]) cs
    else false

/-- Embeds `parseBuild`: requires a leading `'+'` and consumes the whole rest. -/
def parseBuildC (v : List Char) : Option (List Char × List Char) :=
  match v with
  | [] => none
  | c :: cs => if c = '+' then (if scanBuild [] cs then some (v, []) else none) else none

/-- The result of `parse`: the broken-out version parts.  The `short` field of
the Go struct is omitted: `Compare` never consults it. -/
structure Parsed where
  major : List Char
  minor : List Char
  patch : List Char
  prerelease : List Char
  build : List Char
  deriving Repr, DecidableEq

/-- Build-metadata step at the end of `parse`: the optional build part
(attempted only when the input is nonempty and starts with `'+'`), then the
input must be exhausted. -/
def parseTailB (major minor patch pre : List Char) (v4 : List Char) : Option Parsed :=
  if v4.head? = some '+' then
    match parseBuildC v4 with
    | none => none
    | some (bld, v5) => if v5 = [] then some ⟨major, minor, patch, pre, bld⟩ else none
  else if v4 = [] then some ⟨major, minor, patch, pre, []⟩ else none

/-- Tail of `parse` after major, minor and patch: the optional prerelease
(attempted only when the input is nonempty and starts with `'-'`), then the
build step. -/
def parseTail (major minor patch : List Char) (v3 : List Char) : Option Parsed :=
  if v3.head? = some '-' then
    match parsePre v3 with
    | none => none
    | some (pre, v4) => parseTailB major minor patch pre v4
  else parseTailB major minor patch [] v3

/-- Embeds `semver.parse`: a leading `'v'`, then `major[.minor[.patch[-pre][+build]]]`,
with omitted minor and patch defaulting to `"0"`. -/
def parse (v : List Char) : Option Parsed :=
  match v with
  | [] => none
  | c :: rest =>
    if c = 'v' then
      match parseIntC rest with
      | none => none
      | some (major, v1) =>
        match v1 with
        | [] => some ⟨major, ['0'], ['0'], [], []⟩
        | c1 :: rest1 =>
          if c1 = '.' then
            match parseIntC rest1 with
            | none => none
            | some (minor, v2) =>
              match v2 with
              | [] => some ⟨major, minor, ['0'], [], []⟩
              | c2 :: rest2 =>
                if c2 = '.' then
                  match parseIntC rest2 with
                  | none => none
                  | some (patch, v3) => parseTail major minor patch v3
                else none
          else none
    else none

/-- Embeds `compareInt`: equal strings are equal numbers; otherwise a shorter
digit run is smaller, and equal-length runs compare bytewise. -/
def compareIntC (x y : List Char) : Int :=
  if x = y then 0
  else if x.length < y.length then -1
  else if y.length < x.length then 1
  else if lexLt x y then -1 else 1

/-- The strict order `compareIntC` decides: shorter, or equal length and
bytewise smaller. -/
def ciLt (x y : List Char) : Prop :=
  x.length < y.length ∨ (x.length = y.length ∧ lexLt x y = true)

instance (x y : List Char) : Decidable (ciLt x y) := by unfold ciLt; infer_instance

theorem compareIntC_eq_ite (x y : List Char) :
    compareIntC x y = if x = y then 0 else if ciLt x y then -1 else 1 := by
  unfold compareIntC
  by_cases hxy : x = y
  · simp [hxy]
  · simp only [hxy, if_false]
    by_cases hc : ciLt x y
    · rw [if_pos hc]
      rcases hc with h | ⟨h1, h2⟩
      · simp [h]
      · have h3 : ¬ x.length < y.length := by omega
        have h4 : ¬ y.length < x.length := by omega
        simp [h3, h4, h2]
    · rw [if_neg hc]
      have h1 : ¬ x.length < y.length := fun h => hc (Or.inl h)
      by_cases h2 : y.length < x.length
      · simp [h1, h2]
      · have hle : x.length = y.length := by omega
        have h3 : ¬ lexLt x y = true := fun h => hc (Or.inr ⟨hle, h⟩)
        simp [h1, h2, h3]

theorem ciLt_asymm {x y : List Char} (h : ciLt x y) : ¬ ciLt y x := by
  rcases h with h | ⟨h1, h2⟩
  · rintro (h3 | ⟨h3, h4⟩) <;> omega
  · rintro (h3 | ⟨h3, h4⟩)
    · omega
    · have := lexLt_asymm x y h2
      rw [h4] at this
      cases this

theorem ciLt_trans {x y z : List Char} (h1 : ciLt x y) (h2 : ciLt y z) : ciLt x z := by
  rcases h1 with h1 | ⟨h1a, h1b⟩ <;> rcases h2 with h2 | ⟨h2a, h2b⟩
  · left; omega
  · left; omega
  · left; omega
  · right; exact ⟨by omega, lexLt_trans x y z h1b h2b⟩

theorem ciLt_total {x y : List Char} (h : x ≠ y) : ciLt x y ∨ ciLt y x := by
  rcases lt_trichotomy x.length y.length with hl | hl | hl
  · left; left; exact hl
  · rcases lexLt_total x y h with h1 | h1
    · left; right; exact ⟨hl, h1⟩
    · right; right; exact ⟨hl.symm, h1⟩
  · right; left; exact hl

theorem compareIntC_eq0 {x y : List Char} : compareIntC x y = 0 ↔ x = y := by
  rw [compareIntC_eq_ite]
  by_cases hxy : x = y
  · simp [hxy]
  · by_cases hlt : ciLt x y <;> simp [hxy, hlt]

theorem compareIntC_sym (x y : List Char) : compareIntC x y = -(compareIntC y x) := by
  rw [compareIntC_eq_ite, compareIntC_eq_ite]
  by_cases hxy : x = y
  · simp [hxy]
  · have hyx : y ≠ x := fun h => hxy h.symm
    by_cases hlt : ciLt x y
    · simp [hxy, hyx, hlt, ciLt_asymm hlt]
    · rcases ciLt_total hxy with h | h
      · exact absurd h hlt
      · simp [hxy, hyx, hlt, h]

theorem compareIntC_trans {x y z : List Char}
    (h1 : compareIntC x y ≤ 0) (h2 : compareIntC y z ≤ 0) : compareIntC x z ≤ 0 := by
  rw [compareIntC_eq_ite] at h1 h2 ⊢
  by_cases hxy : x = y
  · subst hxy; exact h2
  · by_cases hyz : y = z
    · subst hyz; simp [hxy] at h1 ⊢; exact h1
    · simp only [hxy, hyz, if_false] at h1 h2
      by_cases hxyl : ciLt x y
      · by_cases hyzl : ciLt y z
        · have hxzl : ciLt x z := ciLt_trans hxyl hyzl
          by_cases hxz : x = z
          · simp [hxz]
          · simp [hxz, hxzl]
        · simp [hyzl] at h2
      · simp [hxyl] at h1

/-- Comparison of two prerelease identifiers, inlined in Go's
`comparePrerelease` loop body for `dx != dy`; `dx = dy` stands for the loop
continuing and is mapped to `0`. -/
def identCmp (dx dy : List Char) : Int :=
  if dx = dy then 0
  else if (isNumC dx) ≠ (isNumC dy) then (if isNumC dx then -1 else 1)
  else if isNumC dx && decide (dx.length < dy.length) then -1
  else if isNumC dx && decide (dy.length < dx.length) then 1
  else if lexLt dx dy then -1 else 1

/-- The strict order `identCmp` decides: numeric identifiers sort below
alphanumeric ones, numerics by length then bytes, alphanumerics by bytes. -/
def identLt (dx dy : List Char) : Prop :=
  (isNumC dx = true ∧ isNumC dy = false)
  ∨ (isNumC dx = true ∧ isNumC dy = true ∧ ciLt dx dy)
  ∨ (isNumC dx = false ∧ isNumC dy = false ∧ lexLt dx dy = true)

instance (x y : List Char) : Decidable (identLt x y) := by unfold identLt; infer_instance

theorem identCmp_eq_ite (dx dy : List Char) :
    identCmp dx dy = if dx = dy then 0 else if identLt dx dy then -1 else 1 := by
  unfold identCmp
  by_cases hxy : dx = dy
  · simp [hxy]
  · simp only [hxy, if_false]
    by_cases hnx : isNumC dx = true <;> by_cases hny : isNumC dy = true
    · have hne : ¬ (isNumC dx ≠ isNumC dy) := by simp [hnx, hny]
      rw [if_neg hne]
      simp only [hnx, Bool.true_and]
      by_cases hc : ciLt dx dy
      · rw [if_pos (show identLt dx dy from Or.inr (Or.inl ⟨hnx, hny, hc⟩))]
        rcases hc with h | ⟨h1, h2⟩
        · simp [h]
        · have h3 : ¬ dx.length < dy.length := by omega
          have h4 : ¬ dy.length < dx.length := by omega
          simp [h3, h4, h2]
      · rw [if_neg (show ¬ identLt dx dy from ?hng)]
        case hng =>
          rintro (⟨_, g2⟩ | ⟨_, _, g3⟩ | ⟨g1, _, _⟩)
          · rw [hny] at g2; cases g2
          · exact hc g3
          · rw [hnx] at g1; cases g1
        have h1 : ¬ dx.length < dy.length := fun h => hc (Or.inl h)
        by_cases h2 : dy.length < dx.length
        · simp [h1, h2]
        · have hle : dx.length = dy.length := by omega
          have h3 : ¬ lexLt dx dy = true := fun h => hc (Or.inr ⟨hle, h⟩)
          simp [h1, h2, h3]
    · rw [Bool.not_eq_true] at hny
      have hne : isNumC dx ≠ isNumC dy := by simp [hnx, hny]
      rw [if_pos hne, if_pos hnx, if_pos (show identLt dx dy from Or.inl ⟨hnx, hny⟩)]
    · rw [Bool.not_eq_true] at hnx
      have hne : isNumC dx ≠ isNumC dy := by simp [hnx, hny]
      rw [if_pos hne, if_neg (by simp [hnx]), if_neg (show ¬ identLt dx dy from ?hng)]
      case hng =>
        rintro (⟨g1, _⟩ | ⟨g1, _, _⟩ | ⟨_, g2, _⟩)
        · rw [hnx] at g1; cases g1
        · rw [hnx] at g1; cases g1
        · rw [hny] at g2; cases g2
    · rw [Bool.not_eq_true] at hnx hny
      have hne : ¬ (isNumC dx ≠ isNumC dy) := by simp [hnx, hny]
      rw [if_neg hne, if_neg (by simp [hnx]), if_neg (by simp [hnx])]
      by_cases hl : lexLt dx dy = true
      · rw [if_pos hl, if_pos (show identLt dx dy from Or.inr (Or.inr ⟨hnx, hny, hl⟩))]
      · rw [if_neg hl, if_neg (show ¬ identLt dx dy from ?hng)]
        case hng =>
          rintro (⟨g1, _⟩ | ⟨g1, _, _⟩ | ⟨_, _, g3⟩)
          · rw [hnx] at g1; cases g1
          · rw [hnx] at g1; cases g1
          · exact hl g3

theorem identLt_asymm {x y : List Char} (h : identLt x y) : ¬ identLt y x := by
  intro g
  rcases h with ⟨h1, h2⟩ | ⟨h1, h2, h3⟩ | ⟨h1, h2, h3⟩ <;>
    rcases g with ⟨g1, g2⟩ | ⟨g1, g2, g3⟩ | ⟨g1, g2, g3⟩
  · rw [h2] at g1; cases g1
  · rw [h2] at g1; cases g1
  · rw [h1] at g2; cases g2
  · rw [h1] at g2; cases g2
  · exact ciLt_asymm h3 g3
  · rw [h2] at g1; cases g1
  · rw [h2] at g1; cases g1
  · rw [h2] at g1; cases g1
  · have hc := lexLt_asymm x y h3
    rw [g3] at hc; cases hc

theorem identLt_trans {x y z : List Char} (ha : identLt x y) (hb : identLt y z) :
    identLt x z := by
  rcases ha with ⟨h1, h2⟩ | ⟨h1, h2, h3⟩ | ⟨h1, h2, h3⟩ <;>
    rcases hb with ⟨g1, g2⟩ | ⟨g1, g2, g3⟩ | ⟨g1, g2, g3⟩
  · rw [h2] at g1; cases g1
  · rw [h2] at g1; cases g1
  · left; exact ⟨h1, g2⟩
  · left; exact ⟨h1, g2⟩
  · right; left; exact ⟨h1, g2, ciLt_trans h3 g3⟩
  · rw [h2] at g1; cases g1
  · rw [h2] at g1; cases g1
  · rw [h2] at g1; cases g1
  · right; right; exact ⟨h1, g2, lexLt_trans x y z h3 g3⟩

theorem identLt_total {x y : List Char} (h : x ≠ y) : identLt x y ∨ identLt y x := by
  by_cases hx : isNumC x = true <;> by_cases hy : isNumC y = true
  · rcases ciLt_total h with h1 | h1
    · left; right; left; exact ⟨hx, hy, h1⟩
    · right; right; left; exact ⟨hy, hx, h1⟩
  · rw [Bool.not_eq_true] at hy
    left; left; exact ⟨hx, hy⟩
  · rw [Bool.not_eq_true] at hx
    right; left; exact ⟨hy, hx⟩
  · rw [Bool.not_eq_true] at hx hy
    rcases lexLt_total x y h with h1 | h1
    · left; right; right; exact ⟨hx, hy, h1⟩
    · right; right; right; exact ⟨hy, hx, h1⟩
theorem identCmp_eq0 {x y : List Char} : identCmp x y = 0 ↔ x = y := by
  rw [identCmp_eq_ite]
  by_cases hxy : x = y
  · simp [hxy]
  · by_cases hlt : identLt x y <;> simp [hxy, hlt]

theorem identCmp_sym (x y : List Char) : identCmp x y = -(identCmp y x) := by
  rw [identCmp_eq_ite, identCmp_eq_ite]
  by_cases hxy : x = y
  · simp [hxy]
  · have hyx : y ≠ x := fun h => hxy h.symm
    by_cases hlt : identLt x y
    · simp [hxy, hyx, hlt, identLt_asymm hlt]
    · rcases identLt_total hxy with h | h
      · exact absurd h hlt
      · simp [hxy, hyx, hlt, h]

theorem identCmp_trans {x y z : List Char}
    (h1 : identCmp x y ≤ 0) (h2 : identCmp y z ≤ 0) : identCmp x z ≤ 0 := by
  rw [identCmp_eq_ite] at h1 h2 ⊢
  by_cases hxy : x = y
  · subst hxy; exact h2
  · by_cases hyz : y = z
    · subst hyz; simp [hxy] at h1 ⊢; exact h1
    · simp only [hxy, hyz, if_false] at h1 h2
      by_cases hxyl : identLt x y
      · by_cases hyzl : identLt y z
        · have hxzl : identLt x z := identLt_trans hxyl hyzl
          by_cases hxz : x = z
          · simp [hxz]
          · simp [hxz, hxzl]
        · simp [hyzl] at h2
      · simp [hxyl] at h1

/-- Embeds `nextIdent`: the run of bytes before the first `'.'`, and the rest
starting at that `'.'` (or empty). -/
def nextIdent (x : List Char) : List Char × List Char :=
  match x with
  | [] => ([], [])
  | c :: cs =>
    if c = '.' then ([], c :: cs)
    else
      let p := nextIdent cs
      (c :: p.1, p.2)

theorem nextIdent_append : ∀ x : List Char, (nextIdent x).1 ++ (nextIdent x).2 = x := by
  intro x
  induction x with
  | nil => rfl
  | cons c cs ih =>
    by_cases hc : c = '.'
    · simp [nextIdent, hc]
    · simp [nextIdent, hc, ih]

theorem nextIdent_snd_length : ∀ x : List Char, (nextIdent x).2.length ≤ x.length := by
  intro x
  induction x with
  | nil => simp [nextIdent]
  | cons c cs ih =>
    by_cases hc : c = '.'
    · simp [nextIdent, hc]
    · simp only [nextIdent, hc, if_false, List.length_cons]
      omega

theorem nextIdent_snd_shape (x : List Char) :
    (nextIdent x).2 = [] ∨ ∃ r, (nextIdent x).2 = '.' :: r := by
  induction x with
  | nil => left; rfl
  | cons c cs ih =>
    by_cases hc : c = '.'
    · right; exact ⟨cs, by simp [nextIdent, hc]⟩
    · simpa [nextIdent, hc] using ih

/-- The dot-separated identifier list consumed across the iterations of Go's
`comparePrerelease` loop, starting from the text after the leading separator. -/
def splitDots (l : List Char) : List (List Char) :=
  match _h : (nextIdent l).2 with
  | [] => [(nextIdent l).1]
  | _ :: r =>
    (nextIdent l).1 :: splitDots r
termination_by l.length
decreasing_by
  have ha := nextIdent_append l
  rw [_h] at ha
  have := congrArg List.length ha
  simp only [List.length_append, List.length_cons] at this
  omega

theorem splitDots_eq_single {l d : List Char} (h : nextIdent l = (d, [])) :
    splitDots l = [d] := by
  unfold splitDots
  split
  · rw [h]
  · next c r heq => rw [h] at heq; cases heq

theorem splitDots_eq_cons {l d : List Char} {c : Char} {r : List Char}
    (h : nextIdent l = (d, c :: r)) : splitDots l = d :: splitDots r := by
  conv_lhs => unfold splitDots
  split
  · next heq => rw [h] at heq; cases heq
  · next c2 r2 heq =>
    rw [h] at heq ⊢
    simp only at heq ⊢
    injection heq with h1 h2
    subst h1
    subst h2
    rfl

theorem splitDots_ne_nil (l : List Char) : splitDots l ≠ [] := by
  rcases h : nextIdent l with ⟨d, r⟩
  cases r with
  | nil => rw [splitDots_eq_single h]; simp
  | cons c r' => rw [splitDots_eq_cons h]; simp

theorem splitDots_head {l d r : List Char} (h : nextIdent l = (d, r)) :
    ∃ s, splitDots l = d :: s := by
  cases r with
  | nil => exact ⟨[], splitDots_eq_single h⟩
  | cons c r' => exact ⟨splitDots r', splitDots_eq_cons h⟩

/-- Left inverse of `splitDots`: rejoin the identifiers with dots. -/
def joinDots : List (List Char) → List Char
  | [] => []
  | [d] => d
  | d :: d2 :: ds => d ++ '.' :: joinDots (d2 :: ds)

theorem joinDots_splitDots : ∀ n l, l.length ≤ n → joinDots (splitDots l) = l := by
  intro n
  induction n with
  | zero =>
    intro l hl
    have : l = [] := List.length_eq_zero.mp (by omega)
    subst this
    rw [splitDots_eq_single rfl]
    rfl
  | succ n ih =>
    intro l hl
    rcases h : nextIdent l with ⟨d, r⟩
    have ha := nextIdent_append l
    rw [h] at ha
    simp only at ha
    cases r with
    | nil =>
      rw [splitDots_eq_single h, joinDots]
      simpa using ha
    | cons c r' =>
      have hdot : c = '.' := by
        rcases nextIdent_snd_shape l with hs | ⟨r2, hs⟩ <;> rw [h] at hs
        · cases hs
        · exact (List.cons.injEq _ _ _ _ ▸ hs).1
      subst hdot
      rw [splitDots_eq_cons h]
      have hr : joinDots (splitDots r') = r' := by
        apply ih
        have := congrArg List.length ha
        simp only [List.length_append, List.length_cons] at this
        omega
      rcases hsp : splitDots r' with _ | ⟨e, es⟩
      · exact absurd hsp (splitDots_ne_nil r')
      · rw [joinDots, ← hsp, hr, ← ha]

theorem splitDots_injective {a b : List Char} (h : splitDots a = splitDots b) : a = b := by
  have ha := joinDots_splitDots a.length a le_rfl
  have hb := joinDots_splitDots b.length b le_rfl
  rw [← ha, ← hb, h]

/-- Lexicographic comparison of two identifier lists with `identCmp` on the
entries; the abstract view of Go's `comparePrerelease` loop. -/
def stdCmp : List (List Char) → List (List Char) → Int
  | [], [] => 0
  | [], _ :: _ => -1
  | _ :: _, [] => 1
  | a :: as, b :: bs => if a = b then stdCmp as bs else identCmp a b

theorem stdCmp_eq0 : ∀ l m : List (List Char), stdCmp l m = 0 ↔ l = m := by
  intro l
  induction l with
  | nil =>
    intro m
    cases m with
    | nil => simp [stdCmp]
    | cons b bs => simp [stdCmp]
  | cons a as ih =>
    intro m
    cases m with
    | nil => simp [stdCmp]
    | cons b bs =>
      by_cases hab : a = b
      · subst hab
        simp [stdCmp, ih]
      · simp only [stdCmp, hab, if_false]
        constructor
        · intro h; exact absurd (identCmp_eq0.mp h) hab
        · intro h
          injection h with h1 h2
          exact absurd h1 hab

theorem stdCmp_sym : ∀ l m : List (List Char), stdCmp l m = -(stdCmp m l) := by
  intro l
  induction l with
  | nil =>
    intro m
    cases m with
    | nil => simp [stdCmp]
    | cons b bs => simp [stdCmp]
  | cons a as ih =>
    intro m
    cases m with
    | nil => simp [stdCmp]
    | cons b bs =>
      by_cases hab : a = b
      · subst hab
        simp [stdCmp, ih]
      · have hba : b ≠ a := fun h => hab h.symm
        simp only [stdCmp, hab, hba, if_false]
        exact identCmp_sym a b

theorem stdCmp_trans : ∀ l m n : List (List Char),
    stdCmp l m ≤ 0 → stdCmp m n ≤ 0 → stdCmp l n ≤ 0 := by
  intro l
  induction l with
  | nil =>
    intro m n h1 h2
    cases n with
    | nil => simp [stdCmp]
    | cons c cs => simp [stdCmp]
  | cons a as ih =>
    intro m n h1 h2
    cases m with
    | nil => simp [stdCmp] at h1
    | cons b bs =>
      cases n with
      | nil => simp [stdCmp] at h2
      | cons c cs =>
        simp only [stdCmp] at h1 h2 ⊢
        by_cases hab : a = b
        · subst hab
          by_cases hbc : a = c
          · subst hbc
            simp only [if_pos rfl] at h1 h2 ⊢
            exact ih bs cs h1 h2
          · simp only [if_pos rfl] at h1
            simp only [hbc, if_false] at h2 ⊢
            exact h2
        · by_cases hbc : b = c
          · subst hbc
            simp only [hab, if_false] at h1 ⊢
            exact h1
          · simp only [hab, hbc, if_false] at h1 h2
            have hlab : identLt a b := by
              rw [identCmp_eq_ite] at h1
              simp only [hab, if_false] at h1
              by_cases h : identLt a b
              · exact h
              · rw [if_neg h] at h1; omega
            have hlbc : identLt b c := by
              rw [identCmp_eq_ite] at h2
              simp only [hbc, if_false] at h2
              by_cases h : identLt b c
              · exact h
              · rw [if_neg h] at h2; omega
            have hlac : identLt a c := identLt_trans hlab hlbc
            by_cases hac : a = c
            · subst hac
              exact absurd hlbc (identLt_asymm hlab)
            · rw [identCmp_eq_ite]
              simp only [hac, if_false]
              rw [if_pos hlac]
              omega

/-- Embeds the loop of `comparePrerelease`: both inputs have their leading
separator stripped blindly, then their next identifiers are compared; the
Go loop exit returns `-1` when the left side is exhausted, else `+1`. -/
def cprLoop : List Char → List Char → Int
  | [], _ => -1
  | _ :: _, [] => 1
  | _ :: xs, _ :: ys =>
    let px := nextIdent xs
    let py := nextIdent ys
    if px.1 = py.1 then cprLoop px.2 py.2 else identCmp px.1 py.1
termination_by x _ => x.length
decreasing_by
  simp only [List.length_cons]
  exact Nat.lt_succ_of_le (nextIdent_snd_length xs)

theorem cprLoop_eq_stdCmp : ∀ (n : Nat) (x y : List Char), x.length ≤ n → x ≠ [] → y ≠ [] →
    cprLoop x y = (if stdCmp (splitDots x.tail) (splitDots y.tail) = 0 then -1
                   else stdCmp (splitDots x.tail) (splitDots y.tail)) := by
  intro n
  induction n with
  | zero =>
    intro x y hl hx hy
    cases x with
    | nil => exact absurd rfl hx
    | cons a xs => simp at hl
  | succ n ih =>
    intro x y hl hx hy
    cases x with
    | nil => exact absurd rfl hx
    | cons a xs =>
      cases y with
      | nil => exact absurd rfl hy
      | cons b ys =>
        rcases hpx : nextIdent xs with ⟨dx, x2⟩
        rcases hpy : nextIdent ys with ⟨dy, y2⟩
        simp only [cprLoop, hpx, hpy, List.tail_cons]
        by_cases hd : dx = dy
        · subst hd
          simp only [eq_self_iff_true, if_true]
          cases x2 with
          | nil =>
            rw [splitDots_eq_single hpx]
            cases y2 with
            | nil =>
              rw [splitDots_eq_single hpy]
              simp [cprLoop, stdCmp]
            | cons c2 r2 =>
              rw [splitDots_eq_cons hpy]
              rcases hsp : splitDots r2 with _ | ⟨e, es⟩
              · exact absurd hsp (splitDots_ne_nil r2)
              · have hne : stdCmp [dx] (dx :: e :: es) ≠ 0 := by
                  intro h
                  rw [stdCmp_eq0] at h
                  cases h
                rw [if_neg hne]
                simp [cprLoop, stdCmp]
          | cons c1 r1 =>
            rw [splitDots_eq_cons hpx]
            cases y2 with
            | nil =>
              rw [splitDots_eq_single hpy]
              rcases hsp : splitDots r1 with _ | ⟨e, es⟩
              · exact absurd hsp (splitDots_ne_nil r1)
              · have hne : stdCmp (dx :: e :: es) [dx] ≠ 0 := by
                  intro h
                  rw [stdCmp_eq0] at h
                  injection h with h1 h2
                  cases h2
                rw [if_neg hne]
                simp [cprLoop, stdCmp]
            | cons c2 r2 =>
              rw [splitDots_eq_cons hpy]
              have hx2 : (c1 :: r1 : List Char) ≠ [] := by simp
              have hy2 : (c2 :: r2 : List Char) ≠ [] := by simp
              have hlen : (c1 :: r1 : List Char).length ≤ n := by
                have h2 := nextIdent_snd_length xs
                rw [hpx] at h2
                simp only at h2
                simp only [List.length_cons] at hl h2 ⊢
                omega
              have := ih (c1 :: r1) (c2 :: r2) hlen hx2 hy2
              simp only [List.tail_cons] at this
              rw [this]
              simp only [stdCmp, eq_self_iff_true, if_true]
        · simp only [hd, if_false]
          obtain ⟨s1, hs1⟩ := splitDots_head hpx
          obtain ⟨s2, hs2⟩ := splitDots_head hpy
          rw [hs1, hs2]
          simp only [stdCmp, hd, if_false]
          have hne : identCmp dx dy ≠ 0 := fun h => hd (identCmp_eq0.mp h)
          rw [if_neg hne]

/-- Embeds `comparePrerelease`: equal strings tie, the empty prerelease is
greatest, otherwise the loop runs. -/
def comparePrerelease (x y : List Char) : Int :=
  if x = y then 0
  else if x = [] then 1
  else if y = [] then -1
  else cprLoop x y

/-- Shape invariant of prerelease strings produced by `parse`: empty, or
starting with `'-'`. -/
def HeadDash (x : List Char) : Prop := x = [] ∨ ∃ t, x = '-' :: t

theorem cprLoop_ne_zero {x y : List Char} (hx : x ≠ []) (hy : y ≠ []) :
    cprLoop x y ≠ 0 := by
  rw [cprLoop_eq_stdCmp x.length x y le_rfl hx hy]
  by_cases h : stdCmp (splitDots x.tail) (splitDots y.tail) = 0
  · rw [if_pos h]; omega
  · rw [if_neg h]; exact h

theorem comparePrerelease_eq0 {x y : List Char} : comparePrerelease x y = 0 ↔ x = y := by
  unfold comparePrerelease
  by_cases hxy : x = y
  · simp [hxy]
  · simp only [hxy, if_false]
    constructor
    · intro h
      by_cases hx : x = []
      · rw [if_pos hx] at h; cases h
      · rw [if_neg hx] at h
        by_cases hy : y = []
        · rw [if_pos hy] at h; cases h
        · rw [if_neg hy] at h
          exact absurd h (cprLoop_ne_zero hx hy)
    · intro h; exact h.elim

theorem headDash_tails_ne {x y : List Char} (hdx : HeadDash x) (hdy : HeadDash y)
    (hx : x ≠ []) (hy : y ≠ []) (hxy : x ≠ y) :
    splitDots x.tail ≠ splitDots y.tail := by
  rcases hdx with h1 | ⟨t1, h1⟩
  · exact absurd h1 hx
  · rcases hdy with h2 | ⟨t2, h2⟩
    · exact absurd h2 hy
    · subst h1; subst h2
      simp only [List.tail_cons]
      intro h
      exact hxy (by rw [splitDots_injective h])

theorem comparePrerelease_sym {x y : List Char} (hdx : HeadDash x) (hdy : HeadDash y) :
    comparePrerelease x y = -(comparePrerelease y x) := by
  unfold comparePrerelease
  by_cases hxy : x = y
  · simp [hxy]
  · have hyx : y ≠ x := fun h => hxy h.symm
    simp only [hxy, hyx, if_false]
    by_cases hx : x = []
    · have hy : y ≠ [] := fun h => hxy (by rw [hx, h])
      simp [hx, hy]
    · by_cases hy : y = []
      · simp [hx, hy]
      · simp only [hx, hy, if_false]
        rw [cprLoop_eq_stdCmp x.length x y le_rfl hx hy,
          cprLoop_eq_stdCmp y.length y x le_rfl hy hx]
        have hne : stdCmp (splitDots x.tail) (splitDots y.tail) ≠ 0 := by
          intro h
          exact headDash_tails_ne hdx hdy hx hy hxy ((stdCmp_eq0 _ _).mp h)
        have hne2 : stdCmp (splitDots y.tail) (splitDots x.tail) ≠ 0 := by
          intro h
          rw [stdCmp_sym] at h
          omega
        rw [if_neg hne, if_neg hne2]
        exact stdCmp_sym _ _

theorem comparePrerelease_trans {x y z : List Char}
    (hdx : HeadDash x) (hdy : HeadDash y) (hdz : HeadDash z)
    (h1 : comparePrerelease x y ≤ 0) (h2 : comparePrerelease y z ≤ 0) :
    comparePrerelease x z ≤ 0 := by
  by_cases hxy : x = y
  · subst hxy; exact h2
  · by_cases hyz : y = z
    · subst hyz; exact h1
    · by_cases hxz : x = z
      · subst hxz
        unfold comparePrerelease
        simp
      · unfold comparePrerelease at h1 h2 ⊢
        simp only [hxy, hyz, hxz, if_false] at h1 h2 ⊢
        by_cases hx : x = []
        · rw [if_pos hx] at h1; omega
        · rw [if_neg hx] at h1 ⊢
          by_cases hz : z = []
          · rw [if_pos hz]; omega
          · rw [if_neg hz]
            by_cases hy : y = []
            · rw [if_pos hy] at h2
              omega
            · rw [if_neg hy] at h1 h2
              rw [if_neg hz] at h2
              rw [cprLoop_eq_stdCmp x.length x y le_rfl hx hy] at h1
              rw [cprLoop_eq_stdCmp y.length y z le_rfl hy hz] at h2
              rw [cprLoop_eq_stdCmp x.length x z le_rfl hx hz]
              have hne1 : stdCmp (splitDots x.tail) (splitDots y.tail) ≠ 0 := fun h =>
                headDash_tails_ne hdx hdy hx hy hxy ((stdCmp_eq0 _ _).mp h)
              have hne2 : stdCmp (splitDots y.tail) (splitDots z.tail) ≠ 0 := fun h =>
                headDash_tails_ne hdy hdz hy hz hyz ((stdCmp_eq0 _ _).mp h)
              have hne3 : stdCmp (splitDots x.tail) (splitDots z.tail) ≠ 0 := fun h =>
                headDash_tails_ne hdx hdz hx hz hxz ((stdCmp_eq0 _ _).mp h)
              rw [if_neg hne1] at h1
              rw [if_neg hne2] at h2
              rw [if_neg hne3]
              exact stdCmp_trans _ _ _ h1 h2

theorem parsePre_shape {v t r : List Char} (h : parsePre v = some (t, r)) :
    ∃ u, t = '-' :: u := by
  cases v with
  | nil => cases h
  | cons c cs =>
    simp only [parsePre] at h
    by_cases hc : c = '-'
    · rw [if_pos hc] at h
      rcases hs : scanPre [] cs with _ | ⟨t2, r2⟩ <;> rw [hs] at h
      · cases h
      · rw [Option.map_some'] at h
        injection h with h1
        injection h1 with h2 h3
        exact ⟨t2, h2.symm⟩
    · rw [if_neg hc] at h; cases h

theorem parseTailB_prerelease {major minor patch pre v4 : List Char} {p : Parsed}
    (h : parseTailB major minor patch pre v4 = some p) : p.prerelease = pre := by
  unfold parseTailB at h
  split at h
  · split at h
    · cases h
    · split at h
      · injection h with h1
        rw [← h1]
      · cases h
  · split at h
    · injection h with h1
      rw [← h1]
    · cases h

theorem parseTail_headDash {major minor patch v3 : List Char} {p : Parsed}
    (h : parseTail major minor patch v3 = some p) : HeadDash p.prerelease := by
  unfold parseTail at h
  by_cases hh : v3.head? = some '-'
  · rw [if_pos hh] at h
    rcases hp : parsePre v3 with _ | ⟨pre, v4⟩ <;> rw [hp] at h
    · cases h
    · obtain ⟨u, hu⟩ := parsePre_shape hp
      right
      exact ⟨u, by rw [parseTailB_prerelease h, hu]⟩
  · rw [if_neg hh] at h
    left
    exact parseTailB_prerelease h

theorem parse_headDash {v : List Char} {p : Parsed} (h : parse v = some p) :
    HeadDash p.prerelease := by
  unfold parse at h
  split at h
  · cases h
  · split at h
    · split at h
      · cases h
      · split at h
        · injection h with h2
          rw [← h2]
          left
          rfl
        · split at h
          · split at h
            · cases h
            · split at h
              · injection h with h2
                rw [← h2]
                left
                rfl
              · split at h
                · split at h
                  · cases h
                  · exact parseTail_headDash h
                · cases h
          · cases h
    · cases h

/-- Embeds the body of `semver.Compare` after both parses succeed: major,
minor, patch as integers, then the prerelease; build metadata is ignored. -/
def cmpParsed (p q : Parsed) : Int :=
  if compareIntC p.major q.major ≠ 0 then compareIntC p.major q.major
  else if compareIntC p.minor q.minor ≠ 0 then compareIntC p.minor q.minor
  else if compareIntC p.patch q.patch ≠ 0 then compareIntC p.patch q.patch
  else comparePrerelease p.prerelease q.prerelease

/-- Embeds `semver.Compare` on full version strings: an invalid version is
smaller than any valid one, and two invalid versions are equal. -/
def semverCompare (v w : List Char) : Int :=
  match parse v, parse w with
  | none, none => 0
  | none, some _ => -1
  | some _, none => 1
  | some pv, some pw => cmpParsed pv pw

theorem chainCmp_sym {α : Type} {P : α → Prop} (f g : α → α → Int)
    (hfs : ∀ a b, f a b = -(f b a))
    (hgs : ∀ a b, P a → P b → g a b = -(g b a)) :
    ∀ a b, P a → P b →
      (if f a b ≠ 0 then f a b else g a b) = -(if f b a ≠ 0 then f b a else g b a) := by
  intro a b pa pb
  by_cases h : f a b = 0
  · have h2 : f b a = 0 := by rw [hfs b a, h]; rfl
    rw [if_neg (not_not_intro h), if_neg (not_not_intro h2)]
    exact hgs a b pa pb
  · have h2 : f b a ≠ 0 := by rw [hfs b a]; omega
    rw [if_pos h, if_pos h2]
    exact hfs a b

theorem chainCmp_trans {α : Type} {P : α → Prop} (f g : α → α → Int)
    (hfe : ∀ a b, f a b = 0 → ∀ c, f a c = f b c ∧ f c a = f c b)
    (hfs : ∀ a b, f a b = -(f b a))
    (hft : ∀ a b c, f a b ≤ 0 → f b c ≤ 0 → f a c ≤ 0)
    (hgt : ∀ a b c, P a → P b → P c → g a b ≤ 0 → g b c ≤ 0 → g a c ≤ 0) :
    ∀ a b c, P a → P b → P c →
      (if f a b ≠ 0 then f a b else g a b) ≤ 0 →
      (if f b c ≠ 0 then f b c else g b c) ≤ 0 →
      (if f a c ≠ 0 then f a c else g a c) ≤ 0 := by
  intro a b c pa pb pc h1 h2
  by_cases hab : f a b = 0
  · rw [if_neg (not_not_intro hab)] at h1
    by_cases hbc : f b c = 0
    · have hac : f a c = 0 := by rw [(hfe a b hab c).1]; exact hbc
      rw [if_neg (not_not_intro hbc)] at h2
      rw [if_neg (not_not_intro hac)]
      exact hgt a b c pa pb pc h1 h2
    · rw [if_pos hbc] at h2
      have hac : f a c = f b c := (hfe a b hab c).1
      have hacn : f a c ≠ 0 := by rw [hac]; exact hbc
      rw [if_pos hacn, hac]
      exact h2
  · rw [if_pos hab] at h1
    by_cases hbc : f b c = 0
    · have hac : f a b = f a c := (hfe b c hbc a).2
      have hacn : f a c ≠ 0 := by rw [← hac]; exact hab
      rw [if_pos hacn, ← hac]
      exact h1
    · rw [if_pos hbc] at h2
      have hft2 := hft a b c h1 h2
      by_cases hac : f a c = 0
      · exfalso
        have h3 : f b a = f b c := (hfe a c hac b).2
        have h4 : f b a = -(f a b) := hfs b a
        omega
      · rw [if_pos hac]
        exact hft2

theorem compareIntC_congr {a b : List Char} (h : compareIntC a b = 0) :
    ∀ c, compareIntC a c = compareIntC b c ∧ compareIntC c a = compareIntC c b := by
  intro c
  rw [compareIntC_eq0.mp h]
  exact ⟨rfl, rfl⟩

theorem cmpParsed_sym {p q : Parsed}
    (hp : HeadDash p.prerelease) (hq : HeadDash q.prerelease) :
    cmpParsed p q = -(cmpParsed q p) := by
  exact chainCmp_sym (P := fun r : Parsed => HeadDash r.prerelease)
    (fun r s => compareIntC r.major s.major)
    (fun r s => if compareIntC r.minor s.minor ≠ 0 then compareIntC r.minor s.minor
      else if compareIntC r.patch s.patch ≠ 0 then compareIntC r.patch s.patch
      else comparePrerelease r.prerelease s.prerelease)
    (fun r s => compareIntC_sym r.major s.major)
    (fun r s pr ps => chainCmp_sym (P := fun r : Parsed => HeadDash r.prerelease)
      (fun r s => compareIntC r.minor s.minor)
      (fun r s => if compareIntC r.patch s.patch ≠ 0 then compareIntC r.patch s.patch
        else comparePrerelease r.prerelease s.prerelease)
      (fun r s => compareIntC_sym r.minor s.minor)
      (fun r s pr ps => chainCmp_sym (P := fun r : Parsed => HeadDash r.prerelease)
        (fun r s => compareIntC r.patch s.patch)
        (fun r s => comparePrerelease r.prerelease s.prerelease)
        (fun r s => compareIntC_sym r.patch s.patch)
        (fun r s pr ps => comparePrerelease_sym pr ps)
        r s pr ps)
      r s pr ps)
    p q hp hq

theorem cmpParsed_trans {p q r : Parsed}
    (hp : HeadDash p.prerelease) (hq : HeadDash q.prerelease) (hr : HeadDash r.prerelease)
    (h1 : cmpParsed p q ≤ 0) (h2 : cmpParsed q r ≤ 0) : cmpParsed p r ≤ 0 := by
  exact chainCmp_trans (P := fun s : Parsed => HeadDash s.prerelease)
    (fun s t => compareIntC s.major t.major)
    (fun s t => if compareIntC s.minor t.minor ≠ 0 then compareIntC s.minor t.minor
      else if compareIntC s.patch t.patch ≠ 0 then compareIntC s.patch t.patch
      else comparePrerelease s.prerelease t.prerelease)
    (fun s t h c => by simp [compareIntC_eq0.mp h])
    (fun s t => compareIntC_sym s.major t.major)
    (fun s t u => compareIntC_trans)
    (fun s t u ps pt pu => chainCmp_trans (P := fun s : Parsed => HeadDash s.prerelease)
      (fun s t => compareIntC s.minor t.minor)
      (fun s t => if compareIntC s.patch t.patch ≠ 0 then compareIntC s.patch t.patch
        else comparePrerelease s.prerelease t.prerelease)
      (fun s t h c => by simp [compareIntC_eq0.mp h])
      (fun s t => compareIntC_sym s.minor t.minor)
      (fun s t u => compareIntC_trans)
      (fun s t u ps pt pu => chainCmp_trans (P := fun s : Parsed => HeadDash s.prerelease)
        (fun s t => compareIntC s.patch t.patch)
        (fun s t => comparePrerelease s.prerelease t.prerelease)
        (fun s t h c => by simp [compareIntC_eq0.mp h])
        (fun s t => compareIntC_sym s.patch t.patch)
        (fun s t u => compareIntC_trans)
        (fun s t u ps pt pu => comparePrerelease_trans ps pt pu)
        s t u ps pt pu)
      s t u ps pt pu)
    p q r hp hq hr h1 h2

theorem semverCompare_sym (v w : List Char) : semverCompare v w = -(semverCompare w v) := by
  unfold semverCompare
  rcases hv : parse v with _ | pv <;> rcases hw : parse w with _ | pw
  · rfl
  · rfl
  · rfl
  · exact cmpParsed_sym (parse_headDash hv) (parse_headDash hw)

theorem semverCompare_trans {u v w : List Char}
    (h1 : semverCompare u v ≤ 0) (h2 : semverCompare v w ≤ 0) :
    semverCompare u w ≤ 0 := by
  unfold semverCompare at h1 h2 ⊢
  rcases hu : parse u with _ | pu <;> rcases hv : parse v with _ | pv <;>
    rcases hw : parse w with _ | pw <;>
    simp only [hu, hv, hw] at h1 h2 ⊢ <;> try omega
  exact cmpParsed_trans (parse_headDash hu) (parse_headDash hv) (parse_headDash hw) h1 h2

theorem semverCompare_refl (v : List Char) : semverCompare v v = 0 := by
  have h := semverCompare_sym v v
  omega

end Semver



namespace Registry

/-- One row of the index (the source's `Buildpack` struct): the JSON fields
`ns`, `name`, `version`, `yanked`, `addr`. -/
structure Buildpack where
  Namespace : String
  Name : String
  Version : String
  Yanked : Bool
  Address : String
  deriving Repr, DecidableEq

/-- The zero value `Buildpack\x7b\x7d` that the Go code returns next to an error. -/
def Buildpack.zero : Buildpack := ⟨"", "", "", false, ""⟩

/-- The collected rows of one index file (the source's `Entry` struct). -/
structure Entry where
  Buildpacks : List Buildpack
  deriving Repr, DecidableEq

/-- The version comparison used by `LocateBuildpack`: `semver.Compare` on the
two versions, each with a synthesized leading `v`. -/
def vcmp (a b : String) : Int :=
  Semver.semverCompare ('v' :: a.data) ('v' :: b.data)

/-- The selection fold of `LocateBuildpack` when no version was requested:
start from the first entry and replace the candidate whenever a later entry
compares strictly greater. -/
def selectHighest (first : Buildpack) (rest : List Buildpack) : Buildpack :=
  rest.foldl (fun highest bp => if vcmp bp.Version highest.Version > 0 then bp else highest)
    first

/-- The exact-version loop of `LocateBuildpack`: return the first entry whose
`Version` field is string-equal to the requested version, else the
not-found error naming the coordinate. -/
def findVersion (version coord : String) : List Buildpack → Buildpack × Option String
  | [] => (Buildpack.zero, some ("could not find version for buildpack: " ++ coord))
  | bp :: rest =>
    if bp.Version = version then (bp, none) else findVersion version coord rest

/-- The selection step of `LocateBuildpack` over the collected entries,
given the requested version and the raw coordinate string used in errors. -/
def locateSelect (bps : List Buildpack) (version coord : String) :
    Buildpack × Option String :=
  match bps with
  | [] => (Buildpack.zero, some ("no entries for buildpack: " ++ coord))
  | b0 :: rest =>
    if version = "" then (selectHighest b0 rest, none)
    else findVersion version coord (b0 :: rest)

/-- Shard directory computed by `readEntry` from the buildpack name: the name
itself below three characters, `name[0:2]/name[2:]` at three, and
`name[0:2]/name[2:4]` from four on (`filepath.Join` of two nonempty clean
components is rendered as a slash). -/
def indexDir (name : String) : String :=
  if name.length < 3 then name
  else if name.length < 4 then
    String.mk (name.data.take 2) ++ "/" ++ String.mk (name.data.drop 2)
  else
    String.mk (name.data.take 2) ++ "/" ++ String.mk ((name.data.drop 2).take 2)

/-- Line-reading loop of `readEntry`: each delivered line is decoded by the
`encoding/json` collaborator `ju`; a failing line aborts with the parse error
and an empty `Entry`; when the scanner stops, a pending scanner error is
surfaced next to the entries collected so far. -/
def readLines (ju : String → Except String Buildpack) (ns name : String)
    (scanErr : Option String) (acc : Entry) : List String → Entry × Option String
  | [] =>
    match scanErr with
    | some e =>
      (acc, some ("could not read index for buildpack: " ++ ns ++ "/" ++ name ++ ": " ++ e))
    | none => (acc, none)
  | l :: rest =>
    match ju l with
    | .error e =>
      (⟨[]⟩, some ("could not parse index for buildpack: " ++ ns ++ "/" ++ name ++ ": " ++ e))
    | .ok bp => readLines ju ns name scanErr ⟨acc.Buildpacks ++ [bp]⟩ rest

/-- Environment of one `readEntry` call: outcomes of `os.Stat` and `os.Open`
on the index file, the lines the scanner delivers, and the scanner error
pending after the last delivered line.  The unused `version` parameter of
the Go function is dropped. -/
structure ReadEnv where
  statErr : Option String
  openErr : Option String
  lines : List String
  scanErr : Option String

/-- Embeds `readEntry`: missing file, unopenable file, then the line loop. -/
def readEntry (ju : String → Except String Buildpack) (env : ReadEnv)
    (ns name : String) : Entry × Option String :=
  match env.statErr with
  | some e => (⟨[]⟩, some ("could not find buildpack: " ++ ns ++ "/" ++ name ++ ": " ++ e))
  | none =>
    match env.openErr with
    | some e =>
      (⟨[]⟩, some ("could not open index for buildpack: " ++ ns ++ "/" ++ name ++ ": " ++ e))
    | none => readLines ju ns name env.scanErr ⟨[]⟩ env.lines

/-- The tail of `LocateBuildpack` after `Refresh` succeeded and the
coordinate parser returned namespace, name and version: read the entry and
apply the selection policy. -/
def locateBuildpackCore (ju : String → Except String Buildpack) (env : ReadEnv)
    (ns name version coord : String) : Buildpack × Option String :=
  match readEntry ju env ns name with
  | (_, some e) => (Buildpack.zero, some ("reading entry: " ++ e))
  | (entry, none) => locateSelect entry.Buildpacks version coord

/-- Embeds `LocateBuildpack` whole: the `Refresh` outcome and the result of
the coordinate parser (`buildpack.ParseRegistryID`) are environment inputs,
as both are external collaborators of the resolver. -/
def locateBuildpack (refreshErr : Option String)
    (parseRes : Except String (String × String × String))
    (ju : String → Except String Buildpack) (env : ReadEnv) (coord : String) :
    Buildpack × Option String :=
  match refreshErr with
  | some e => (Buildpack.zero, some ("refreshing cache: " ++ e))
  | none =>
    match parseRes with
    | .error e => (Buildpack.zero, some e)
    | .ok (ns, name, version) => locateBuildpackCore ju env ns name version coord

/-- External image-reference parsing capability (go-containerregistry's
name package): outcomes of `ParseReference` under weak validation and of
`NewDigest`, supplied as oracles since the address validator is an external
collaborator of this core. -/
structure RefOracle where
  parseReferenceWeak : String → Option String
  newDigest : String → Option String

/-- Embeds `Buildpack.Validate`: empty address, then the weak reference
parse (its error propagated as-is), then the digest parse (its error
replaced by the fixed message). -/
def Validate (o : RefOracle) (b : Buildpack) : Option String :=
  if b.Address = "" then some "address is a required field"
  else
    match o.parseReferenceWeak b.Address with
    | some e => some e
    | none =>
      match o.newDigest b.Address with
      | some _ => some ("'" ++ b.Address ++ "' is not a digest reference")
      | none => none

/-- State of the git repository as one `validateCache` call observes it:
outcomes of `PlainOpen` and `Remotes`, and each remote's URL list. -/
structure GitRepo where
  openErr : Option String
  remotesErr : Option String
  remotes : List (List String)

/-- Embeds `validateCache`: open, list remotes, then require exactly one
remote with exactly one URL equal to the configured one. -/
def validateCache (url : String) (g : GitRepo) : Option String :=
  match g.openErr with
  | some e => some ("could not open registry cache: " ++ e)
  | none =>
    match g.remotesErr with
    | some e => some ("could not access registry cache: " ++ e)
    | none =>
      match g.remotes with
      | [urls] =>
        match urls with
        | [u] => if u ≠ url then some "invalid registry cache origin" else none
        | _ => some "invalid registry cache remotes"
      | _ => some "invalid registry cache remotes"

/-- Outcome classification of `os.Stat` on the cache root, matching the
`err != nil` / `os.IsNotExist(err)` tests of the source. -/
inductive StatRes
  | ok
  | notExist
  | otherErr
  deriving Repr, DecidableEq

/-- Environment of one `Initialize` call: the stat outcome, the outcome of
the first `createCache`, the repository state each successive
`validateCache` call would observe, the `os.RemoveAll` outcome, and the
outcome of the `createCache` rerun. -/
structure InitEnv where
  stat : StatRes
  create1 : Option String
  repoState : Nat → GitRepo
  removeAll : Option String
  create2 : Option String

/-- Embeds `RegistryCache.Initialize` (named `initCache` here): create the
cache when the root does not exist, validate it, and on a validation failure
remove the root recursively and create again. -/
def initCache (url : String) (env : InitEnv) : Option String :=
  let createErr :=
    match env.stat with
    | .ok => none
    | .notExist => env.create1
    | .otherErr => none
  match createErr with
  | some e => some ("could not create registry cache: " ++ e)
  | none =>
    match validateCache url (env.repoState 0) with
    | none => none
    | some _ =>
      match env.removeAll with
      | some e => some ("could not reset registry cache: " ++ e)
      | none =>
        match env.create2 with
        | some e => some ("could not create registry cache: " ++ e)
        | none => none

end Registry

namespace Registry

theorem vcmp_sym (a b : String) : vcmp a b = -(vcmp b a) :=
  Semver.semverCompare_sym _ _

theorem vcmp_trans {a b c : String} (h1 : vcmp a b ≤ 0) (h2 : vcmp b c ≤ 0) :
    vcmp a c ≤ 0 :=
  Semver.semverCompare_trans h1 h2

theorem vcmp_refl (a : String) : vcmp a a = 0 :=
  Semver.semverCompare_refl _

theorem vcmp_gt_trans {a b c : String} (h1 : vcmp a b > 0) (h2 : vcmp b c > 0) :
    vcmp a c > 0 := by
  by_contra h
  push_neg at h
  have h3 : vcmp c b ≤ 0 := by
    have := vcmp_sym b c
    omega
  have h4 := vcmp_trans h h3
  omega

theorem vcmp_gt_of_gt_of_le {a b c : String} (h1 : vcmp a b > 0) (h2 : vcmp c b ≤ 0) :
    vcmp a c > 0 := by
  by_contra h
  push_neg at h
  have h3 := vcmp_trans h h2
  omega

theorem vcmp_le_of_le_of_gt {x acc e : String} (h1 : vcmp x acc ≤ 0) (h2 : vcmp e acc > 0) :
    vcmp x e ≤ 0 := by
  by_contra h
  push_neg at h
  have h3 := vcmp_gt_trans h h2
  omega

theorem selectHighest_cons (acc e : Buildpack) (rest : List Buildpack) :
    selectHighest acc (e :: rest) =
      selectHighest (if vcmp e.Version acc.Version > 0 then e else acc) rest := rfl

/-- Invariant-carrying characterization of the selection fold: starting from
a first-seen maximum `acc` of the already processed entries
`pre1 ++ acc :: pre2`, the fold result is a first-seen maximum of the whole
list. -/
theorem selectHighest_spec :
    ∀ (rest pre1 pre2 : List Buildpack) (acc : Buildpack),
      (∀ e ∈ pre1 ++ acc :: pre2, vcmp e.Version acc.Version ≤ 0) →
      (∀ e ∈ pre1, ∃ w ∈ pre1 ++ acc :: pre2, vcmp w.Version e.Version > 0) →
      ∃ pre post,
        pre1 ++ acc :: (pre2 ++ rest) = pre ++ (selectHighest acc rest) :: post ∧
        (∀ e ∈ pre1 ++ acc :: (pre2 ++ rest),
          vcmp e.Version (selectHighest acc rest).Version ≤ 0) ∧
        (∀ e ∈ pre, ∃ w ∈ pre1 ++ acc :: (pre2 ++ rest), vcmp w.Version e.Version > 0) := by
  intro rest
  induction rest with
  | nil =>
    intro pre1 pre2 acc h1 h2
    refine ⟨pre1, pre2, by simp [selectHighest], ?_, ?_⟩
    · simpa [selectHighest] using h1
    · simpa [selectHighest] using h2
  | cons e rest ih =>
    intro pre1 pre2 acc h1 h2
    rw [selectHighest_cons]
    by_cases hge : vcmp e.Version acc.Version > 0
    · rw [if_pos hge]
      have h1' : ∀ x ∈ (pre1 ++ acc :: pre2) ++ e :: [], vcmp x.Version e.Version ≤ 0 := by
        intro x hx
        rcases List.mem_append.mp hx with hx1 | hx1
        · exact vcmp_le_of_le_of_gt (h1 x hx1) hge
        · rcases List.mem_singleton.mp hx1 with rfl
          rw [vcmp_refl]
      have h2' : ∀ x ∈ pre1 ++ acc :: pre2,
          ∃ w ∈ (pre1 ++ acc :: pre2) ++ e :: [], vcmp w.Version x.Version > 0 := by
        intro x hx
        exact ⟨e, List.mem_append.mpr (Or.inr (List.mem_singleton.mpr rfl)),
          vcmp_gt_of_gt_of_le hge (h1 x hx)⟩
      obtain ⟨pre, post, hlist, hmax, hfirst⟩ := ih (pre1 ++ acc :: pre2) [] e h1' h2'
      refine ⟨pre, post, ?_, ?_, ?_⟩
      · rw [← hlist]
        simp
      · intro x hx
        apply hmax
        revert hx
        simp
      · intro x hx
        obtain ⟨w, hw, hgt⟩ := hfirst x hx
        refine ⟨w, ?_, hgt⟩
        revert hw
        simp
    · rw [if_neg hge]
      have hle : vcmp e.Version acc.Version ≤ 0 := by omega
      have h1' : ∀ x ∈ pre1 ++ acc :: (pre2 ++ [e]), vcmp x.Version acc.Version ≤ 0 := by
        intro x hx
        rcases List.mem_append.mp hx with hx1 | hx1
        · exact h1 x (List.mem_append.mpr (Or.inl hx1))
        · rcases List.mem_cons.mp hx1 with rfl | hx2
          · rw [vcmp_refl]
          · rcases List.mem_append.mp hx2 with hx3 | hx3
            · exact h1 x (by simp [hx3])
            · rcases List.mem_singleton.mp hx3 with rfl
              exact hle
      have h2' : ∀ x ∈ pre1,
          ∃ w ∈ pre1 ++ acc :: (pre2 ++ [e]), vcmp w.Version x.Version > 0 := by
        intro x hx
        obtain ⟨w, hw, hgt⟩ := h2 x hx
        refine ⟨w, ?_, hgt⟩
        revert hw
        simp
        tauto
      obtain ⟨pre, post, hlist, hmax, hfirst⟩ := ih pre1 (pre2 ++ [e]) acc h1' h2'
      refine ⟨pre, post, ?_, ?_, ?_⟩
      · rw [← hlist]
        simp
      · intro x hx
        apply hmax
        revert hx
        simp
      · intro x hx
        obtain ⟨w, hw, hgt⟩ := hfirst x hx
        refine ⟨w, ?_, hgt⟩
        revert hw
        simp

end Registry

namespace Registry

theorem findVersion_eq_find (version coord : String) :
    ∀ l : List Buildpack,
      findVersion version coord l =
        match l.find? (fun bp => bp.Version == version) with
        | some bp => (bp, none)
        | none => (Buildpack.zero, some ("could not find version for buildpack: " ++ coord)) := by
  intro l
  induction l with
  | nil => rfl
  | cons bp rest ih =>
    by_cases h : bp.Version = version
    · rw [List.find?_cons_of_pos _ (by simp [h])]
      simp [findVersion, h]
    · rw [List.find?_cons_of_neg _ (by simp [h])]
      simp only [findVersion, h, if_false]
      exact ih

theorem readLines_fail {ju : String → Except String Buildpack} {ns name : String}
    {scanErr : Option String} :
    ∀ (lines : List String) (acc : Entry),
      ((∃ l ∈ lines, ∃ e, ju l = Except.error e) ∨ scanErr ≠ none) →
      ∃ m, (readLines ju ns name scanErr acc lines).2 = some m := by
  intro lines
  induction lines with
  | nil =>
    intro acc h
    rcases h with ⟨l, hl, _⟩ | h
    · cases hl
    · rcases hs : scanErr with _ | e
      · exact absurd hs h
      · exact ⟨"could not read index for buildpack: " ++ ns ++ "/" ++ name ++ ": " ++ e,
          by simp [readLines, hs]⟩
  | cons l rest ih =>
    intro acc h
    rcases hj : ju l with e | bp
    · exact ⟨"could not parse index for buildpack: " ++ ns ++ "/" ++ name ++ ": " ++ e,
        by simp [readLines, hj]⟩
    · have h' : (∃ l2 ∈ rest, ∃ e, ju l2 = Except.error e) ∨ scanErr ≠ none := by
        rcases h with ⟨l2, hl2, e, he⟩ | h
        · rcases List.mem_cons.mp hl2 with rfl | hl3
          · rw [hj] at he; cases he
          · exact Or.inl ⟨l2, hl3, e, he⟩
        · exact Or.inr h
      obtain ⟨m, hm⟩ := ih ⟨acc.Buildpacks ++ [bp]⟩ h'
      exact ⟨m, by simp [readLines, hj]; exact hm⟩

theorem selectHighest_map (g : Buildpack → String) :
    ∀ (rest : List Buildpack) (acc : Buildpack),
      selectHighest { acc with Address := g acc }
          (rest.map (fun b => { b with Address := g b })) =
        (fun b => { b with Address := g (selectHighest acc rest) }) (selectHighest acc rest) := by
  intro rest
  induction rest with
  | nil => intro acc; rfl
  | cons e rest ih =>
    intro acc
    have hv1 : ({ e with Address := g e } : Buildpack).Version = e.Version := rfl
    have hv2 : ({ acc with Address := g acc } : Buildpack).Version = acc.Version := rfl
    simp only [List.map_cons, selectHighest_cons, hv1, hv2]
    by_cases h : vcmp e.Version acc.Version > 0
    · rw [if_pos h, if_pos h]
      exact ih e
    · rw [if_neg h, if_neg h]
      exact ih acc

theorem findVersion_map (g : Buildpack → String) (version coord : String) :
    ∀ l : List Buildpack,
      findVersion version coord (l.map (fun b => { b with Address := g b })) =
        match findVersion version coord l with
        | (r, none) => ({ r with Address := g r }, none)
        | (_, some e) => (Buildpack.zero, some e) := by
  intro l
  induction l with
  | nil => rfl
  | cons bp rest ih =>
    have hv : ({ bp with Address := g bp } : Buildpack).Version = bp.Version := rfl
    simp only [List.map_cons, findVersion, hv]
    by_cases h : bp.Version = version
    · rw [if_pos h, if_pos h]
    · rw [if_neg h, if_neg h]
      exact ih

theorem reset_create_messages_ne (d c : String) :
    ("could not reset registry cache: " ++ d) ≠ ("could not create registry cache: " ++ c) := by
  intro h
  have h2 := congrArg String.data h
  rw [String.data_append, String.data_append] at h2
  have h3 := congrArg (fun l : List Char => l[10]?) h2
  simp only [List.getElem?_append] at h3
  rw [if_pos (by decide : (10 : Nat) < "could not reset registry cache: ".data.length),
    if_pos (by decide : (10 : Nat) < "could not create registry cache: ".data.length)] at h3
  exact absurd h3 (by decide)

theorem vcmp_unparsable {a b : String}
    (ha : Semver.parse ('v' :: a.data) = none) (hb : Semver.parse ('v' :: b.data) = none) :
    vcmp a b = 0 := by
  unfold vcmp Semver.semverCompare
  rw [ha, hb]

end Registry

open Registry

/-- Index row with version 1.0.0 used by concrete instances. -/
def exV100 : Buildpack := ⟨"acme", "rocket", "1.0.0", false, "r.io/a@sha256:aa"⟩

/-- Index row with version 2.1.0, marked yanked, used by concrete instances. -/
def exV210 : Buildpack := ⟨"acme", "rocket", "2.1.0", true, "r.io/b@sha256:bb"⟩

/-- Index row with version 1.9.9 used by concrete instances. -/
def exV199 : Buildpack := ⟨"acme", "rocket", "1.9.9", false, "r.io/c@sha256:cc"⟩

/-- JSON-decoder oracle for a three-line index file holding versions
1.0.0, 2.1.0 and 1.9.9 in that order. -/
def exJu : String → Except String Buildpack := fun l =>
  if l = "l1" then .ok exV100 else if l = "l2" then .ok exV210 else .ok exV199

/-- JSON-decoder oracle for a three-line index file holding versions
2.1.0, 1.9.9 and 1.0.0 in that order (the exact-match target last). -/
def exJuLast : String → Except String Buildpack := fun l =>
  if l = "l1" then .ok exV210 else if l = "l2" then .ok exV199 else .ok exV100

/-- A present, readable three-line index file. -/
def exEnv : ReadEnv := ⟨none, none, ["l1", "l2", "l3"], none⟩

/-- Claim C4: the shard directory computed by readEntry is the name itself
when the name is shorter than three characters, the first two characters
joined with the third when the length is exactly three, and the first two
characters joined with the third and fourth from length four on — a pure
function of the length and leading characters, with no hashing. -/
theorem c4_shard_directory (name : String) :
    (name.length < 3 → indexDir name = name) ∧
    (name.length = 3 →
      indexDir name =
        String.mk (name.data.take 2) ++ "/" ++ String.mk ((name.data.drop 2).take 1)) ∧
    (4 ≤ name.length →
      indexDir name =
        String.mk (name.data.take 2) ++ "/" ++ String.mk ((name.data.drop 2).take 2)) := by
  refine ⟨?_, ?_, ?_⟩
  · intro h
    unfold indexDir
    rw [if_pos h]
  · intro h
    unfold indexDir
    rw [if_neg (by omega), if_pos (by omega)]
    have hd : name.data.length = 3 := h
    have hlen : (name.data.drop 2).length ≤ 1 := by
      rw [List.length_drop, hd]
    rw [List.take_of_length_le hlen]
  · intro h
    unfold indexDir
    rw [if_neg (by omega), if_neg (by omega)]

/-- Witness for C4 at the boundary lengths one through five. -/
theorem c4_shard_directory_witness :
    indexDir "a" = "a" ∧ indexDir "ab" = "ab" ∧ indexDir "abc" = "ab/c" ∧
    indexDir "abcd" = "ab/cd" ∧ indexDir "abcde" = "ab/cd" :=
  ⟨(c4_shard_directory "a").1 (by decide),
   (c4_shard_directory "ab").1 (by decide),
   ((c4_shard_directory "abc").2.1 (by decide)).trans (by decide),
   ((c4_shard_directory "abcd").2.2 (by decide)).trans (by decide),
   ((c4_shard_directory "abcde").2.2 (by decide)).trans (by decide)⟩

/-- Claim C8: when the index file exists, opens, and yields zero entries
(no lines, no scanner error), the resolution fails with the error naming
the coordinate. -/
theorem c8_empty_index_error (ju : String → Except String Buildpack) (env : ReadEnv)
    (ns name version coord : String)
    (hstat : env.statErr = none) (hopen : env.openErr = none)
    (hlines : env.lines = []) (hscan : env.scanErr = none) :
    locateBuildpackCore ju env ns name version coord =
      (Buildpack.zero, some ("no entries for buildpack: " ++ coord)) := by
  unfold locateBuildpackCore readEntry
  rw [hstat, hopen, hlines, hscan]
  rfl

/-- Witness for C8 on a concrete empty index file. -/
theorem c8_empty_index_error_witness :
    locateBuildpackCore exJu ⟨none, none, [], none⟩ "acme" "rocket" "" "acme/rocket" =
      (Buildpack.zero, some ("no entries for buildpack: " ++ "acme/rocket")) :=
  c8_empty_index_error exJu ⟨none, none, [], none⟩ "acme" "rocket" "" "acme/rocket"
    rfl rfl rfl rfl

/-- Claim C3: with a version requested, the resolution returns the first
collected entry whose version field is string-equal to it (no
normalization), and fails with the not-found error when no entry matches. -/
theorem c3_exact_string_match (ju : String → Except String Buildpack) (env : ReadEnv)
    (ns name version coord : String) (bps : List Buildpack)
    (hread : readEntry ju env ns name = (⟨bps⟩, none))
    (hv : version ≠ "") (hne : bps ≠ []) :
    locateBuildpackCore ju env ns name version coord =
      match bps.find? (fun bp => bp.Version == version) with
      | some bp => (bp, none)
      | none => (Buildpack.zero, some ("could not find version for buildpack: " ++ coord)) := by
  unfold locateBuildpackCore
  rw [hread]
  cases bps with
  | nil => exact absurd rfl hne
  | cons b0 rest =>
    show (if version = "" then (selectHighest b0 rest, none)
        else findVersion version coord (b0 :: rest)) = _
    rw [if_neg hv]
    exact findVersion_eq_find version coord (b0 :: rest)

/-- Witness for C3: the requested version sits at the last position and is
still the one returned. -/
theorem c3_exact_string_match_witness :
    locateBuildpackCore exJuLast exEnv "acme" "rocket" "1.0.0" "acme/rocket" =
      (exV100, none) :=
  (c3_exact_string_match exJuLast exEnv "acme" "rocket" "1.0.0" "acme/rocket"
    [exV210, exV199, exV100] rfl (by decide) (by decide)).trans (by decide)

/-- Claim C2: with no version requested, the resolution returns an entry of
the collected list that no entry beats under `semver.Compare` with a
synthesized leading v, and every entry seen before it is beaten by some
entry — the first-seen maximum under strict greater-than, with no yanked
filtering; in particular a file with versions 1.0.0, 2.1.0 (yanked), 1.9.9
resolves to the yanked 2.1.0 entry. -/
theorem c2_highest_semver_selection :
    (∀ (ju : String → Except String Buildpack) (env : ReadEnv)
        (ns name coord : String) (b0 : Buildpack) (rest : List Buildpack),
      readEntry ju env ns name = (⟨b0 :: rest⟩, none) →
      ∃ r pre post,
        locateBuildpackCore ju env ns name "" coord = (r, none) ∧
        b0 :: rest = pre ++ r :: post ∧
        (∀ e ∈ b0 :: rest, vcmp e.Version r.Version ≤ 0) ∧
        (∀ e ∈ pre, ∃ w ∈ b0 :: rest, vcmp w.Version e.Version > 0)) ∧
    locateBuildpackCore exJu exEnv "acme" "rocket" "" "acme/rocket" = (exV210, none) ∧
    exV100.Version = "1.0.0" ∧ exV210.Version = "2.1.0" ∧ exV199.Version = "1.9.9" ∧
    exV210.Yanked = true := by
  refine ⟨?_, by decide, rfl, rfl, rfl, rfl⟩
  intro ju env ns name coord b0 rest hread
  have h1 : ∀ e ∈ ([] : List Buildpack) ++ b0 :: [], vcmp e.Version b0.Version ≤ 0 := by
    intro e he
    simp at he
    rw [he, vcmp_refl]
  have h2 : ∀ e ∈ ([] : List Buildpack),
      ∃ w ∈ ([] : List Buildpack) ++ b0 :: [], vcmp w.Version e.Version > 0 := by
    intro e he
    cases he
  obtain ⟨pre, post, hlist, hmax, hfirst⟩ := selectHighest_spec rest [] [] b0 h1 h2
  refine ⟨selectHighest b0 rest, pre, post, ?_, ?_, ?_, ?_⟩
  · unfold locateBuildpackCore
    rw [hread]
    show (if "" = "" then ((selectHighest b0 rest : Buildpack), (none : Option String))
        else findVersion "" coord (b0 :: rest)) = _
    rw [if_pos rfl]
  · simpa using hlist
  · intro e he
    apply hmax
    simpa using he
  · intro e he
    obtain ⟨w, hw, hgt⟩ := hfirst e he
    refine ⟨w, by simpa using hw, hgt⟩

/-- Witness for C2 on the concrete three-line index file. -/
theorem c2_highest_semver_selection_witness :
    ∃ r pre post,
      locateBuildpackCore exJu exEnv "acme" "rocket" "" "acme/rocket" = (r, none) ∧
      exV100 :: [exV210, exV199] = pre ++ r :: post ∧
      (∀ e ∈ exV100 :: [exV210, exV199], vcmp e.Version r.Version ≤ 0) ∧
      (∀ e ∈ pre, ∃ w ∈ exV100 :: [exV210, exV199], vcmp w.Version e.Version > 0) :=
  c2_highest_semver_selection.1 exJu exEnv "acme" "rocket" "acme/rocket"
    exV100 [exV210, exV199] rfl

/-- Claim C9: when every collected entry has a version string that
`semver.parse` rejects even with the synthesized leading v, the
comparison always returns zero and the resolution returns the first entry
in file order. -/
theorem c9_unparsable_versions_first_entry
    (ju : String → Except String Buildpack) (env : ReadEnv)
    (ns name coord : String) (b0 : Buildpack) (rest : List Buildpack)
    (hread : readEntry ju env ns name = (⟨b0 :: rest⟩, none))
    (hall : ∀ e ∈ b0 :: rest, Semver.parse ('v' :: e.Version.data) = none) :
    locateBuildpackCore ju env ns name "" coord = (b0, none) := by
  unfold locateBuildpackCore
  rw [hread]
  show (if "" = "" then ((selectHighest b0 rest : Buildpack), (none : Option String))
      else findVersion "" coord (b0 :: rest)) = _
  rw [if_pos rfl]
  have hb0 := hall b0 (by simp)
  have hrest : ∀ e ∈ rest, Semver.parse ('v' :: e.Version.data) = none :=
    fun e he => hall e (by simp [he])
  have hsel : selectHighest b0 rest = b0 := by
    clear hall hread
    revert hrest
    induction rest with
    | nil => intro _; rfl
    | cons e rest2 ih =>
      intro hrest
      rw [selectHighest_cons]
      have he := hrest e (by simp)
      have h0 : vcmp e.Version b0.Version = 0 := vcmp_unparsable he hb0
      rw [if_neg (by omega)]
      exact ih (fun e2 he2 => hrest e2 (by simp [he2]))
  rw [hsel]

/-- Index rows with versions that are not semantic versions. -/
def exHello : Buildpack := ⟨"acme", "odd", "hello", false, "r.io/h@sha256:aa"⟩

/-- Second index row with a non-semantic version. -/
def exWorld : Buildpack := ⟨"acme", "odd", "world", true, "r.io/w@sha256:bb"⟩

/-- JSON-decoder oracle for the two-line unparsable-version index file. -/
def exJuOdd : String → Except String Buildpack := fun l =>
  if l = "l1" then .ok exHello else .ok exWorld

/-- Witness for C9 on a concrete index file whose versions are unparsable. -/
theorem c9_unparsable_versions_first_entry_witness :
    locateBuildpackCore exJuOdd ⟨none, none, ["l1", "l2"], none⟩ "acme" "odd" "" "acme/odd" =
      (exHello, none) :=
  c9_unparsable_versions_first_entry exJuOdd ⟨none, none, ["l1", "l2"], none⟩
    "acme" "odd" "acme/odd" exHello [exWorld] rfl (by decide)

/-- Claim C6: if any delivered line fails to decode, or a scanner error is
pending, the read reports an error and the resolution returns the zero
entry with the wrapped error — never a partial result. -/
theorem c6_read_error_yields_no_entries
    (ju : String → Except String Buildpack) (env : ReadEnv)
    (ns name version coord : String)
    (hstat : env.statErr = none) (hopen : env.openErr = none)
    (hfail : (∃ l ∈ env.lines, ∃ e, ju l = Except.error e) ∨ env.scanErr ≠ none) :
    ∃ m, (readEntry ju env ns name).2 = some m ∧
      locateBuildpackCore ju env ns name version coord =
        (Buildpack.zero, some ("reading entry: " ++ m)) := by
  have h2 : readEntry ju env ns name = readLines ju ns name env.scanErr ⟨[]⟩ env.lines := by
    unfold readEntry
    rw [hstat, hopen]
  obtain ⟨m, hm⟩ := readLines_fail env.lines ⟨[]⟩ hfail
  refine ⟨m, ?_, ?_⟩
  · rw [h2]
    exact hm
  · unfold locateBuildpackCore
    rcases hre : readEntry ju env ns name with ⟨ent, err⟩
    have herr : err = some m := by
      have h3 : (readEntry ju env ns name).2 = some m := by rw [h2]; exact hm
      rw [hre] at h3
      exact h3
    rw [herr]

/-- JSON-decoder oracle that rejects the line `bad`. -/
def exJuBad : String → Except String Buildpack := fun l =>
  if l = "bad" then .error "boom" else .ok exV100

/-- Witness for C6: one good line followed by a malformed one. -/
theorem c6_read_error_yields_no_entries_witness :
    ∃ m, (readEntry exJuBad ⟨none, none, ["good", "bad"], none⟩ "acme" "rocket").2 = some m ∧
      locateBuildpackCore exJuBad ⟨none, none, ["good", "bad"], none⟩
          "acme" "rocket" "" "acme/rocket" =
        (Buildpack.zero, some ("reading entry: " ++ m)) :=
  c6_read_error_yields_no_entries exJuBad ⟨none, none, ["good", "bad"], none⟩
    "acme" "rocket" "" "acme/rocket" rfl rfl
    (Or.inl ⟨"bad", by decide, "boom", rfl⟩)

/-- Claim C7: address validation fails on an empty address, fails with the
parser's error when the address is not a weakly-valid reference, fails with
the fixed digest message when the address is not a digest reference, and
succeeds when the address is a well-formed digest reference. -/
theorem c7_validate_branches (o : RefOracle) (b : Buildpack) :
    (b.Address = "" → Validate o b = some "address is a required field") ∧
    (∀ e, b.Address ≠ "" → o.parseReferenceWeak b.Address = some e →
      Validate o b = some e) ∧
    (b.Address ≠ "" → o.parseReferenceWeak b.Address = none →
      (∃ e, o.newDigest b.Address = some e) →
      Validate o b = some ("'" ++ b.Address ++ "' is not a digest reference")) ∧
    (b.Address ≠ "" → o.parseReferenceWeak b.Address = none →
      o.newDigest b.Address = none → Validate o b = none) := by
  refine ⟨?_, ?_, ?_, ?_⟩ <;> unfold Validate
  · intro h
    rw [if_pos h]
  · intro e hne hpw
    rw [if_neg hne, hpw]
  · rintro hne hpw ⟨e, hd⟩
    rw [if_neg hne, hpw, hd]
  · intro hne hpw hd
    rw [if_neg hne, hpw, hd]

/-- Reference oracle for the C7 witness: weak parsing rejects only the
address `???`, and only addresses containing `@` parse as digests. -/
def exOracle : RefOracle :=
  ⟨fun a => if a = "???" then some "bad reference" else none,
   fun a => if a.data.contains '@' then none else some "no digest"⟩

/-- Witness for C7: the empty address, a weakly-invalid address, a tag-only
address and a digest address. -/
theorem c7_validate_branches_witness :
    Validate exOracle ⟨"n", "m", "1", false, ""⟩ = some "address is a required field" ∧
    Validate exOracle ⟨"n", "m", "1", false, "???"⟩ = some "bad reference" ∧
    Validate exOracle ⟨"n", "m", "1", false, "host/img:tag"⟩ =
      some ("'" ++ "host/img:tag" ++ "' is not a digest reference") ∧
    Validate exOracle ⟨"n", "m", "1", false, "host/img@sha256:abc"⟩ = none :=
  ⟨(c7_validate_branches exOracle ⟨"n", "m", "1", false, ""⟩).1 rfl,
   (c7_validate_branches exOracle ⟨"n", "m", "1", false, "???"⟩).2.1
     "bad reference" (by decide) (by decide),
   (c7_validate_branches exOracle ⟨"n", "m", "1", false, "host/img:tag"⟩).2.2.1
     (by decide) (by decide) ⟨"no digest", by decide⟩,
   (c7_validate_branches exOracle ⟨"n", "m", "1", false, "host/img@sha256:abc"⟩).2.2.2
     (by decide) (by decide) (by decide)⟩

/-- Claim C5: when the mirror exists but validation fails, the cache is
deleted and recreated instead of surfacing the validation error: a
successful delete and recreate ends the call successfully, a failed delete
is reported as a reset error, a failed recreate as a create error, and the
two messages are distinct; each of the four invalidity kinds (open failure,
remote count other than one, URL count other than one, mismatched URL)
makes validation fail. -/
theorem c5_invalid_cache_reset (url : String) (env : InitEnv) (vErr : String)
    (hstat : env.stat = .ok)
    (hval : validateCache url (env.repoState 0) = some vErr) :
    (env.removeAll = none → env.create2 = none → initCache url env = none) ∧
    (∀ d, env.removeAll = some d →
      initCache url env = some ("could not reset registry cache: " ++ d)) ∧
    (∀ c, env.removeAll = none → env.create2 = some c →
      initCache url env = some ("could not create registry cache: " ++ c)) ∧
    (∀ d c, ("could not reset registry cache: " ++ d) ≠
      ("could not create registry cache: " ++ c)) ∧
    (∀ g : GitRepo, ∀ e, g.openErr = some e → validateCache url g ≠ none) ∧
    (∀ g : GitRepo, g.openErr = none → g.remotesErr = none → g.remotes.length ≠ 1 →
      validateCache url g ≠ none) ∧
    (∀ (g : GitRepo) (urls : List String), g.openErr = none → g.remotesErr = none →
      g.remotes = [urls] → urls.length ≠ 1 → validateCache url g ≠ none) ∧
    (∀ (g : GitRepo) (u : String), g.openErr = none → g.remotesErr = none →
      g.remotes = [[u]] → u ≠ url → validateCache url g ≠ none) := by
  refine ⟨?_, ?_, ?_, reset_create_messages_ne, ?_, ?_, ?_, ?_⟩
  · intro h1 h2
    simp [initCache, hstat, hval, h1, h2]
  · intro d h1
    simp [initCache, hstat, hval, h1]
  · intro c h1 h2
    simp [initCache, hstat, hval, h1, h2]
  · intro g e h
    simp [validateCache, h]
  · intro g h1 h2 h3
    unfold validateCache
    rw [h1, h2]
    rcases hr : g.remotes with _ | ⟨urls, rem⟩
    · simp
    · rcases rem with _ | ⟨u2, rem2⟩
      · rw [hr] at h3
        simp at h3
      · simp
  · intro g urls h1 h2 h3 h4
    unfold validateCache
    rw [h1, h2, h3]
    rcases hu : urls with _ | ⟨u, us⟩
    · simp
    · rcases us with _ | ⟨u2, us2⟩
      · rw [hu] at h4
        simp at h4
      · simp
  · intro g u h1 h2 h3 h4
    simp [validateCache, h1, h2, h3, h4]

/-- Environment for the C5 witness: the mirror exists, but its single remote
points at the wrong URL; delete and recreate both succeed. -/
def exEnvReset : InitEnv :=
  ⟨.ok, none, fun _ => ⟨none, none, [["other-url"]]⟩, none, none⟩

/-- Witness for C5: the mismatched-URL mirror is reset and recreated, and the
call ends successfully rather than with the validation error. -/
theorem c5_invalid_cache_reset_witness :
    initCache "good-url" exEnvReset = none ∧
    validateCache "good-url" (exEnvReset.repoState 0) = some "invalid registry cache origin" :=
  ⟨(c5_invalid_cache_reset "good-url" exEnvReset "invalid registry cache origin"
      rfl rfl).1 rfl rfl, rfl⟩

/-- Claim C10: a mirror created in the same call (absent at entry) is still
validated; if that validation fails the mirror is deleted and created once
more, and the call returns the second creation's outcome with no further
validation — the result depends only on the first validation observation. -/
theorem c10_fresh_cache_validated :
    (∀ (url : String) (env : InitEnv) (v : String),
      env.stat = .notExist → env.create1 = none →
      validateCache url (env.repoState 0) = some v →
      env.removeAll = none → env.create2 = none →
      initCache url env = none) ∧
    (∀ (url : String) (env : InitEnv) (v d : String),
      env.stat = .notExist → env.create1 = none →
      validateCache url (env.repoState 0) = some v →
      env.removeAll = some d →
      initCache url env = some ("could not reset registry cache: " ++ d)) ∧
    (∀ (url : String) (env : InitEnv),
      env.stat = .notExist → env.create1 = none →
      validateCache url (env.repoState 0) = none →
      initCache url env = none) ∧
    (∀ (url : String) (env env2 : InitEnv),
      env.stat = env2.stat → env.create1 = env2.create1 →
      env.repoState 0 = env2.repoState 0 →
      env.removeAll = env2.removeAll → env.create2 = env2.create2 →
      initCache url env = initCache url env2) := by
  refine ⟨?_, ?_, ?_, ?_⟩
  · intro url env v h1 h2 h3 h4 h5
    simp [initCache, h1, h2, h3, h4, h5]
  · intro url env v d h1 h2 h3 h4
    simp [initCache, h1, h2, h3, h4]
  · intro url env h1 h2 h3
    simp [initCache, h1, h2, h3]
  · intro url env env2 h1 h2 h3 h4 h5
    unfold initCache
    rw [h1, h2, h3, h4, h5]

/-- Environment for the C10 witness: the root is absent, the fresh clone
succeeds but fails validation (no remotes), and the reset and second
creation succeed. -/
def exEnvFresh : InitEnv :=
  ⟨.notExist, none, fun _ => ⟨none, none, []⟩, none, none⟩

/-- Witness for C10 on the concrete fresh-then-invalid environment. -/
theorem c10_fresh_cache_validated_witness :
    initCache "u" exEnvFresh = none ∧
    validateCache "u" (exEnvFresh.repoState 0) = some "invalid registry cache remotes" :=
  ⟨c10_fresh_cache_validated.1 "u" exEnvFresh "invalid registry cache remotes"
      rfl rfl rfl rfl rfl, rfl⟩

/-- Index row whose address is empty, so that its validation always fails. -/
def bpNoAddr : Buildpack := ⟨"acme", "rocket", "1.0.0", false, ""⟩

/-- Reference oracle accepting every address, the weakest possible validator. -/
def permissiveOracle : RefOracle := ⟨fun _ => none, fun _ => none⟩

/-- JSON-decoder oracle producing the empty-address row. -/
def juNoAddr : String → Except String Buildpack := fun _ => .ok bpNoAddr

/-- Claim C1 is false on the code: a resolution can succeed and hand back an
entry whose address fails `Validate` (here the empty address, which fails
even under a fully permissive reference parser), so the returned address has
not passed validation and the malformed address is not an error of the
resolution. -/
theorem c1_counterexample_unvalidated_address :
    locateBuildpackCore juNoAddr ⟨none, none, ["l1"], none⟩ "acme" "rocket" "" "acme/rocket" =
      (bpNoAddr, none) ∧
    Validate permissiveOracle bpNoAddr = some "address is a required field" := by
  exact ⟨rfl, rfl⟩

/-- Claim C1 amended: `LocateBuildpack` never invokes address validation; the
selection is independent of the address fields — rewriting every entry's
address rewrites the resolved entry's address in the success case and
changes nothing in the error case — and `Validate` is a separate capability
for callers. -/
theorem c1_amended_selection_ignores_address :
    ∀ (bps : List Buildpack) (version coord : String) (g : Buildpack → String)
      (r : Buildpack),
      (locateSelect bps version coord = (r, none) →
        locateSelect (bps.map (fun b => { b with Address := g b })) version coord =
          ({ r with Address := g r }, none)) ∧
      (∀ e, locateSelect bps version coord = (r, some e) →
        locateSelect (bps.map (fun b => { b with Address := g b })) version coord =
          (Buildpack.zero, some e)) := by
  intro bps version coord g r
  cases bps with
  | nil =>
    constructor
    · intro h
      injection h with h1 h2
      cases h2
    · intro e h
      injection h with h1 h2
      injection h2 with h3
      rw [← h3]
      rfl
  | cons b0 rest =>
    constructor
    · intro h
      show (if version = "" then
            (selectHighest { b0 with Address := g b0 }
              (rest.map (fun b => { b with Address := g b })), (none : Option String))
          else findVersion version coord
            (({ b0 with Address := g b0 }) :: rest.map (fun b => { b with Address := g b }))) = _
      replace h : (if version = "" then ((selectHighest b0 rest : Buildpack), (none : Option String))
          else findVersion version coord (b0 :: rest)) = (r, none) := h
      by_cases hv : version = ""
      · rw [if_pos hv] at h ⊢
        injection h with h1 h2
        rw [selectHighest_map g rest b0, h1]
      · rw [if_neg hv] at h ⊢
        show findVersion version coord
            ((b0 :: rest).map (fun b => { b with Address := g b })) = _
        rw [findVersion_map g version coord (b0 :: rest), h]
    · intro e h
      show (if version = "" then
            (selectHighest { b0 with Address := g b0 }
              (rest.map (fun b => { b with Address := g b })), (none : Option String))
          else findVersion version coord
            (({ b0 with Address := g b0 }) :: rest.map (fun b => { b with Address := g b }))) = _
      replace h : (if version = "" then ((selectHighest b0 rest : Buildpack), (none : Option String))
          else findVersion version coord (b0 :: rest)) = (r, some e) := h
      by_cases hv : version = ""
      · rw [if_pos hv] at h
        injection h with h1 h2
        cases h2
      · rw [if_neg hv] at h ⊢
        show findVersion version coord
            ((b0 :: rest).map (fun b => { b with Address := g b })) = _
        rw [findVersion_map g version coord (b0 :: rest), h]

/-- Witness for the amended C1: rewriting every address leaves the selected
index position unchanged and merely rewrites the returned address. -/
theorem c1_amended_selection_ignores_address_witness :
    locateSelect ([exV100, exV210, exV199].map (fun b => { b with Address := "X" }))
        "" "acme/rocket" =
      ({ exV210 with Address := "X" }, none) :=
  (c1_amended_selection_ignores_address [exV100, exV210, exV199] "" "acme/rocket"
    (fun _ => "X") exV210).1 (by decide)
